import Mathlib

/-!
# Verification of the SCARLET core specification

A shallow embedding of the SCARLET source-separation core: the proximal
operator library, the constraint framework, the component model, the
convolution operator, the `Blend` solver and the PSF-matching subroutine.
The repository ships only the PSF-matching tutorial notebook and the test
notes; the library modules themselves (`operator.py`, `constraint.py`,
`blend.py`, `psf_match.py`, ...) are not present, so every definition below
is modelled from the specification's own words (marked
`Modelled from the spec:`), and the theorems settle the specification's
claims against that model.

Real-valued image data is embedded as exact rationals (`ℚ`); images and
morphologies are finitely indexed arrays.
-/

namespace Scarlet

/-! ## Proximal operator library (spec 4.1) -/

/-- Modelled from the spec: the non-negativity clamp — the Euclidean
projection of a vector onto the non-negative orthant, `max(x, 0)`
componentwise.  (`operator.py` is not in the sources.) -/
def prox_plus {n : ℕ} (x : Fin n → ℚ) : Fin n → ℚ :=
  fun i => max (x i) 0

/-- Modelled from the spec: the L1 soft-threshold operator,
`sign(x) * max(|x| - λ, 0)` componentwise, with threshold `l ≥ 0`
supplied by the caller.  (`operator.py` is not in the sources.) -/
def prox_soft {n : ℕ} (l : ℚ) (x : Fin n → ℚ) : Fin n → ℚ :=
  fun i => (if 0 ≤ x i then 1 else -1) * max (|x i| - l) 0

/-- Modelled from the spec: index `j` outranks index `i` in the
"k largest-magnitude entries, ties broken by index order" selection:
strictly larger magnitude, or equal magnitude and smaller index. -/
def better {n : ℕ} (x : Fin n → ℚ) (j i : Fin n) : Prop :=
  |x i| < |x j| ∨ (|x j| = |x i| ∧ j < i)

instance {n : ℕ} (x : Fin n → ℚ) (j i : Fin n) : Decidable (better x j i) := by
  unfold better; infer_instance

/-- Modelled from the spec: for the L0 hard-threshold with budget `k`,
the number of indices that outrank index `i`. -/
def countBetter {n : ℕ} (x : Fin n → ℚ) (i : Fin n) : ℕ :=
  (Finset.univ.filter (fun j => better x j i)).card

/-- Modelled from the spec: the L0 hard-threshold operator — keep the `k`
largest-magnitude entries at their original values (ties broken by index
order), zero the rest.  (`operator.py` is not in the sources.) -/
def prox_hard {n : ℕ} (k : ℕ) (x : Fin n → ℚ) : Fin n → ℚ :=
  fun i => if countBetter x i < k then x i else 0

/-- The number of nonzero entries of a vector. -/
def suppCard {n : ℕ} (x : Fin n → ℚ) : ℕ :=
  (Finset.univ.filter (fun i => x i ≠ 0)).card

/-- Modelled from the spec: symmetry averaging on an `h × w` morphology —
each pixel value is replaced by the mean of itself and its 180°-rotated
partner.  (`operator.py` is not in the sources.) -/
def prox_symmetry {h w : ℕ} (x : Fin h → Fin w → ℚ) : Fin h → Fin w → ℚ :=
  fun i j => (x i j + x i.rev j.rev) / 2

/-- Modelled from the spec: the SED simplex operator — the approximate
projection of an SED vector onto the unit simplex: clamp non-negative,
then normalize to unit sum (left unnormalized when the clamped sum is
zero).  (`operator.py` is not in the sources.) -/
def proj_sed {n : ℕ} (x : Fin n → ℚ) : Fin n → ℚ :=
  if (∑ i, prox_plus x i) = 0 then prox_plus x
  else fun i => prox_plus x i / ∑ i, prox_plus x i

/-- Modelled from the spec: one ray of the approximate radial monotonicity
projection.  Walking outward from the peak, each pixel is limited by the
already-projected value of its neighbor one step closer to the peak
(the precomputed weighted-neighbor reference along the ray), so the
projected value is `min(value, projected closer neighbor)`. -/
def monotonicScan : ℚ → List ℚ → List ℚ
  | _, [] => []
  | prev, a :: t => min a prev :: monotonicScan (min a prev) t

/-- Modelled from the spec: a morphology organised radially around the
peak pixel — the peak value together with the pixel values along each ray
from the peak, ordered by increasing radius. -/
structure RayMorph where
  peak : ℚ
  rays : List (List ℚ)

/-- Modelled from the spec: the approximate-mode radial monotonicity
projection — every ray is rescanned outward from the peak, limiting each
pixel by its already-projected closer neighbor.
(`operator.py` is not in the sources.) -/
def prox_monotonic (m : RayMorph) : RayMorph :=
  { peak := m.peak, rays := m.rays.map (monotonicScan m.peak) }

/-! ## Bounding boxes and images (spec 3) -/

/-- Modelled from the spec: a rectangular bounding box — the sub-region of
the scene a component's morphology occupies, given by its origin
`(y0, x0)` and its extent `h × w`.  Pixels are indexed `(y, x)`. -/
structure Box where
  y0 : ℤ
  x0 : ℤ
  h : ℕ
  w : ℕ
deriving DecidableEq

/-- Pixel `(y, x)` lies inside the box. -/
def Box.mem (b : Box) (p : ℤ × ℤ) : Prop :=
  b.y0 ≤ p.1 ∧ p.1 < b.y0 + b.h ∧ b.x0 ≤ p.2 ∧ p.2 < b.x0 + b.w

instance (b : Box) (p : ℤ × ℤ) : Decidable (b.mem p) := by
  unfold Box.mem; infer_instance

/-- Box `b` lies within box `scene`. -/
def Box.inside (b scene : Box) : Prop :=
  ∀ p : ℤ × ℤ, b.mem p → scene.mem p

/-- Modelled from the spec: clipping a bounding box to the scene extent —
components at the edge are clipped, not wrapped. -/
def Box.clip (scene b : Box) : Box :=
  let y0 := max b.y0 scene.y0
  let x0 := max b.x0 scene.x0
  let y1 := min (b.y0 + b.h) (scene.y0 + scene.h)
  let x1 := min (b.x0 + b.w) (scene.x0 + scene.w)
  { y0 := y0, x0 := x0, h := (y1 - y0).toNat, w := (x1 - x0).toNat }

/-- The pixels of a box in row-major order (the index order used for
tie-breaking and flattening). -/
def Box.pixList (b : Box) : List (ℤ × ℤ) :=
  (List.range b.h).flatMap fun dy =>
    (List.range b.w).map fun dx => (b.y0 + dy, b.x0 + dx)

/-- The pixels of a box as a finite set, for summation. -/
def Box.pixFinset (b : Box) : Finset (ℤ × ℤ) :=
  b.pixList.toFinset

/-! ## Convolution operator (spec 4.4) -/

/-- Modelled from the spec: a 2-D convolution kernel (a PSF or a
difference kernel) — a finite set of offsets carrying weights. -/
structure Kern where
  support : Finset (ℤ × ℤ)
  val : ℤ × ℤ → ℚ

/-- Modelled from the spec: direct filter-window convolution — the output
pixel is the kernel-weighted sum of input pixels at the supported
offsets (zero padding outside the image is the caller's convention:
morphologies vanish outside their bounding box). -/
def convolve (K : Kern) (M : ℤ → ℤ → ℚ) : ℤ → ℤ → ℚ :=
  fun i j => ∑ p ∈ K.support, K.val p * M (i - p.1) (j - p.2)

/-- Modelled from the spec: the adjoint of convolution — cross-correlation
with the flipped kernel, used for gradient backpropagation. -/
def correlate (K : Kern) (M : ℤ → ℤ → ℚ) : ℤ → ℤ → ℚ :=
  fun i j => ∑ p ∈ K.support, K.val p * M (i + p.1) (j + p.2)

/-- The identity (delta) kernel: a single unit weight at offset `(0,0)`.
Convolving with it leaves the image unchanged. -/
def deltaKern : Kern :=
  { support := {(0, 0)}, val := fun p => if p = (0, 0) then 1 else 0 }

/-! ## Constraint framework (spec 4.2) -/

/-- Modelled from the spec: constraint kinds are a tagged variant, each
carrying its configuration parameters.  The solver-level morphology
constraints the claims exercise are non-negativity and L0 sparsity. -/
inductive ConstraintKind where
  | positivity : ConstraintKind
  | sparsityL0 : ℕ → ConstraintKind
deriving DecidableEq

/-- Modelled from the spec: the L0 hard-threshold applied to the
morphology pixels of a bounding box, with ties broken by the box's
row-major pixel order; pixels outside the box are untouched. -/
def hardThresholdBox (k : ℕ) (bb : Box) (f : ℤ → ℤ → ℚ) : ℤ → ℤ → ℚ :=
  fun y x =>
    if bb.mem (y, x) then
      let l := bb.pixList
      let rank := (l.filter fun q =>
        |f y x| < |f q.1 q.2| ∨
          (|f q.1 q.2| = |f y x| ∧ l.indexOf q < l.indexOf (y, x))).length
      if rank < k then f y x else 0
    else f y x

/-- Modelled from the spec: a constraint exposes `apply(array, step)`;
configuration (the bounding-box geometry) is bound at construction. -/
def applyConstraint : ConstraintKind → Box → (ℤ → ℤ → ℚ) → (ℤ → ℤ → ℚ)
  | .positivity, _, f => fun y x => max (f y x) 0
  | .sparsityL0 k, bb, f => hardThresholdBox k bb f

/-- Modelled from the spec: constraints compose by sequential application,
caller-specified list applied left to right. -/
def applyConstraints (cs : List ConstraintKind) (bb : Box) (f : ℤ → ℤ → ℚ) :
    ℤ → ℤ → ℚ :=
  cs.foldl (fun g ck => applyConstraint ck bb g) f

/-! ## Component model (spec 3, 4.3) -/

/-- Modelled from the spec: a component owns an SED vector (one entry per
band), a morphology image, a bounding box, an optional per-band kernel
(PSF or difference kernel), a list of bound constraints and a center.
The center is stored in `(y, x)` order, as reported by the accessor.
`fixSed` marks components whose SED is held fixed (PSF matching). -/
structure Component (B : ℕ) where
  sed : Fin B → ℚ
  morph : ℤ → ℤ → ℚ
  bb : Box
  kernel : Option (Fin B → Kern)
  constraints : List ConstraintKind
  center : ℤ × ℤ
  fixSed : Bool

/-- The kernel actually applied in band `b`: the supplied one, or the
identity (delta) kernel when no kernel was supplied. -/
def Component.kernelOrDelta {B : ℕ} (c : Component B) (b : Fin B) : Kern :=
  match c.kernel with
  | none => deltaKern
  | some ks => ks b

/-- Modelled from the spec: `get_model()` — the SED-weighted,
kernel-convolved morphology placed into the bounding box, zero
elsewhere: `model[b] = SED[b] * convolve(Morphology, Kernel[b])`. -/
def Component.getModel {B : ℕ} (c : Component B) (b : Fin B) (y x : ℤ) : ℚ :=
  if c.bb.mem (y, x) then c.sed b * convolve (c.kernelOrDelta b) c.morph y x
  else 0

/-- Modelled from the spec: gradient update of a component — an
(unaccelerated proximal-gradient) step on SED and morphology, followed by
projection: the SED is clamped non-negative (unless held fixed), the
morphology is passed through the bound constraints left to right. -/
def Component.update {B : ℕ} (c : Component B) (sedGrad : Fin B → ℚ)
    (morphGrad : ℤ → ℤ → ℚ) (sedStep morphStep : ℚ) : Component B :=
  { c with
    sed := if c.fixSed then c.sed
           else fun b => max (c.sed b + sedStep * sedGrad b) 0
    morph := applyConstraints c.constraints c.bb
      (fun y x => c.morph y x + morphStep * morphGrad y x) }

/-! ## Source initialization (spec 4.3, 7) -/

/-- Modelled from the spec: the recoverable initialization error — raised
when a proposed peak has no statistically significant flux above the
noise floor; it conveys the offending peak coordinate. -/
structure SourceInitError where
  center : ℤ × ℤ
deriving DecidableEq

/-- Modelled from the spec: the statistical-significance test at
initialization — some band's flux at the center pixel exceeds that
band's background RMS.  `center` is in `(y, x)` order. -/
def significantFlux {B : ℕ} (cube : Fin B → ℤ → ℤ → ℚ) (bgRms : Fin B → ℚ)
    (center : ℤ × ℤ) : Prop :=
  ∃ b : Fin B, bgRms b < cube b center.1 center.2

instance {B : ℕ} (cube : Fin B → ℤ → ℤ → ℚ) (bgRms : Fin B → ℚ)
    (center : ℤ × ℤ) : Decidable (significantFlux cube bgRms center) := by
  unfold significantFlux; infer_instance

/-- Modelled from the spec: `ExtendedSource` construction.  The `center`
argument is taken in `(y, x)` order (row first): the significance test
and the initial SED read the cube at row `center.1`, column `center.2`.
The bounding box of half-size `s` around the center is clipped to the
scene extent.  A peak without significant flux fails with
`SourceInitError` carrying the peak coordinate; this test is the only
failure mode. -/
def mkExtendedSource {B : ℕ} (center : ℤ × ℤ) (scene : Box)
    (cube : Fin B → ℤ → ℤ → ℚ) (bgRms : Fin B → ℚ)
    (kernel : Option (Fin B → Kern)) (s : ℕ) :
    Except SourceInitError (Component B) :=
  if significantFlux cube bgRms center then
    .ok
      { sed := fun b => max (cube b center.1 center.2) 0
        morph := fun y x => max (∑ b, cube b y x) 0
        bb := Box.clip scene
          { y0 := center.1 - s, x0 := center.2 - s, h := 2 * s + 1, w := 2 * s + 1 }
        kernel := kernel
        constraints := [ConstraintKind.positivity]
        center := center
        fixSed := false }
  else .error { center := center }

/-- Peaks are caller-supplied `(x, y)` pairs; the caller swaps them to the
`(y, x)` order the source constructor expects (as the tutorial notebook
does with `(peak[1], peak[0])`). -/
def peakToCenter (p : ℤ × ℤ) : ℤ × ℤ :=
  (p.2, p.1)

/-- Modelled from the spec: the caller's catch-and-skip loop — build a
source per peak, skipping the peaks whose construction fails. -/
def initSources {B : ℕ} (peaks : List (ℤ × ℤ)) (scene : Box)
    (cube : Fin B → ℤ → ℤ → ℚ) (bgRms : Fin B → ℚ)
    (kernel : Option (Fin B → Kern)) (s : ℕ) : List (Component B) :=
  peaks.filterMap fun p =>
    (mkExtendedSource (peakToCenter p) scene cube bgRms kernel s).toOption

/-! ## Blend solver (spec 4.5) -/

/-- Modelled from the spec: the terminal solver states —
`Converged | MaxIterReached`. -/
inductive FitStatus where
  | converged : FitStatus
  | maxIterReached : FitStatus
deriving DecidableEq

/-- Modelled from the spec: a `Blend` owns the ordered collection of
components, the image cube, the weight map, the scene extent and the
solver state (iteration count, step sizes). -/
structure Blend (B : ℕ) where
  components : List (Component B)
  cube : Fin B → ℤ → ℤ → ℚ
  weights : Fin B → ℤ → ℤ → ℚ
  scene : Box
  it : ℕ
  sedStep : ℚ
  morphStep : ℚ

/-- Modelled from the spec: `Blend(sources)` — a blend over an ordered
list of components, before data is bound; iteration count starts at 0. -/
def mkBlend {B : ℕ} (comps : List (Component B)) (scene : Box)
    (sedStep morphStep : ℚ) : Blend B :=
  { components := comps
    cube := fun _ _ _ => 0
    weights := fun _ _ _ => 0
    scene := scene
    it := 0
    sedStep := sedStep
    morphStep := morphStep }

/-- Modelled from the spec: `set_data` — bind the image cube and the
per-band background RMS to a blend; the weights are the inverse
variances, with zero RMS marking masked bands. -/
def Blend.setData {B : ℕ} (bl : Blend B) (cube : Fin B → ℤ → ℤ → ℚ)
    (bgRms : Fin B → ℚ) : Blend B :=
  { bl with
    cube := cube
    weights := fun b _ _ => if bgRms b = 0 then 0 else 1 / (bgRms b) ^ 2 }

/-- Modelled from the spec: `get_model()` — the model cube as the sum of
all components' contributions. -/
def Blend.getModel {B : ℕ} (bl : Blend B) (b : Fin B) (y x : ℤ) : ℚ :=
  (bl.components.map fun c => c.getModel b y x).sum

/-- Modelled from the spec: the weighted residual —
`(data - model)`, scaled by inverse variance. -/
def Blend.residual {B : ℕ} (bl : Blend B) (b : Fin B) (y x : ℤ) : ℚ :=
  bl.weights b y x * (bl.cube b y x - bl.getModel b y x)

/-- Modelled from the spec: one solver iteration — compute the model cube
and the weighted residual, then give every component a gradient step on
its SED and its morphology (the morphology gradient backpropagates the
residual through the adjoint convolution), followed by projection through
its constraints; the iteration count advances. -/
def Blend.step {B : ℕ} (bl : Blend B) : Blend B :=
  { bl with
    components := bl.components.map fun c =>
      c.update
        (fun b => ∑ p ∈ c.bb.pixFinset,
          bl.residual b p.1 p.2 * convolve (c.kernelOrDelta b) c.morph p.1 p.2)
        (fun y x => ∑ b, c.sed b * correlate (c.kernelOrDelta b) (bl.residual b) y x)
        bl.sedStep bl.morphStep
    it := bl.it + 1 }

/-- Modelled from the spec: the total model flux over the scene, feeding
the convergence metric. -/
def Blend.totalFlux {B : ℕ} (bl : Blend B) : ℚ :=
  ∑ b, ∑ p ∈ bl.scene.pixFinset, bl.getModel b p.1 p.2

/-- Modelled from the spec: the convergence metric — the relative change
in total model flux between consecutive iterations. -/
def convMetric (old new : ℚ) : ℚ :=
  if old = 0 then |new - old| else |new - old| / |old|

/-- Modelled from the spec: the fit loop — up to `n` further iterations;
after each step the convergence metric is tested against `eRel`, and the
loop ends in `Converged` when it drops below `eRel`, or in
`MaxIterReached` when the budget runs out (the best current model is
kept either way). -/
def Blend.fitAux {B : ℕ} : ℕ → Blend B → ℚ → Blend B × FitStatus
  | 0, bl, _ => (bl, FitStatus.maxIterReached)
  | n + 1, bl, eRel =>
    let bl2 := bl.step
    if convMetric bl.totalFlux bl2.totalFlux < eRel then
      (bl2, FitStatus.converged)
    else
      Blend.fitAux n bl2 eRel

/-- Modelled from the spec: `fit(max_iter, e_rel)`. -/
def Blend.fit {B : ℕ} (bl : Blend B) (maxIter : ℕ) (eRel : ℚ) :
    Blend B × FitStatus :=
  Blend.fitAux maxIter bl eRel

/-! ## PSF matching (spec 4.6) -/

/-- Modelled from the spec: the one-hot SED of band `b` — only that band
active. -/
def oneHotSed {N : ℕ} (b : Fin N) : Fin N → ℚ :=
  fun b2 => if b2 = b then 1 else 0

/-- Modelled from the spec: the per-band component of the PSF-matching
blend — a fixed one-hot SED, the target PSF as its kernel, the band's
PSF as initial morphology, and an added L0-sparsity constraint (next to
non-negativity) on the morphology. -/
def diffKernelComponent {N : ℕ} (psfs : Fin N → ℤ → ℤ → ℚ) (target : Kern)
    (scene : Box) (l0k : ℕ) (b : Fin N) : Component N :=
  { sed := oneHotSed b
    morph := psfs b
    bb := scene
    kernel := some fun _ => target
    constraints := [ConstraintKind.positivity, ConstraintKind.sparsityL0 l0k]
    center := (scene.y0 + scene.h / 2, scene.x0 + scene.w / 2)
    fixSed := true }

/-- Modelled from the spec: the PSF-matching blend — one component per
band, assembled against the PSF stack treated as data. -/
def diffBlend {N : ℕ} (psfs : Fin N → ℤ → ℤ → ℚ) (target : Kern)
    (scene : Box) (l0k : ℕ) (sedStep morphStep : ℚ) : Blend N :=
  { components := (List.finRange N).map (diffKernelComponent psfs target scene l0k)
    cube := psfs
    weights := fun _ _ _ => 1
    scene := scene
    it := 0
    sedStep := sedStep
    morphStep := morphStep }

/-- Modelled from the spec: `build_diff_kernels` — one component per band
with a one-hot SED and the target PSF as kernel, assembled into a blend
whose data is the PSF stack, fitted with an added L0-sparsity constraint
on each morphology; returns the fitted morphologies (the difference
kernels) together with the underlying blend. -/
def build_diff_kernels {N : ℕ} (psfs : Fin N → ℤ → ℤ → ℚ) (target : Kern)
    (scene : Box) (l0k : ℕ) (sedStep morphStep : ℚ) (maxIter : ℕ)
    (eRel : ℚ) : List (ℤ → ℤ → ℚ) × Blend N :=
  let fitted := ((diffBlend psfs target scene l0k sedStep morphStep).fit maxIter eRel).1
  (fitted.components.map fun c => c.morph, fitted)

/-! ## FFT-based convolution strategy (spec 4.4)

The FFT strategy is modelled exactly: transform both operands with the
2-D discrete Fourier transform, multiply pointwise in the frequency
domain, and transform back.  The transform is written over any field
with primitive roots of unity of the padded grid sizes, so the exact
arithmetic of the strategy (what the floating-point FFT approximates) is
captured, and small instances can be evaluated in `ℚ` with root `-1`. -/

/-- The kernel as a total function of integer offsets, zero off its
support (zero padding). -/
def Kern.toFun (K : Kern) (y x : ℤ) : ℚ :=
  if (y, x) ∈ K.support then K.val (y, x) else 0

/-- Modelled from the spec: the 2-D discrete Fourier transform on an
`n1 × n2` cyclic grid with roots of unity `z1, z2` — the exact
arithmetic the FFT computes. -/
def dft2 {R : Type} [Field R] (n1 n2 : ℕ) [NeZero n1] [NeZero n2]
    (z1 z2 : R) (a : ZMod n1 × ZMod n2 → R) : ZMod n1 × ZMod n2 → R :=
  fun k => ∑ j : ZMod n1 × ZMod n2,
    a j * (z1 ^ (j.1.val * k.1.val) * z2 ^ (j.2.val * k.2.val))

/-- Modelled from the spec: the inverse 2-D discrete Fourier transform. -/
def invDft2 {R : Type} [Field R] (n1 n2 : ℕ) [NeZero n1] [NeZero n2]
    (z1 z2 : R) (F : ZMod n1 × ZMod n2 → R) : ZMod n1 × ZMod n2 → R :=
  fun k => (∑ j : ZMod n1 × ZMod n2,
    F j * (z1⁻¹ ^ (k.1.val * j.1.val) * z2⁻¹ ^ (k.2.val * j.2.val))) /
      ((n1 : R) * (n2 : R))

/-- Cyclic (wrap-around) convolution on the `n1 × n2` grid. -/
def cyclicConv {R : Type} [Field R] (n1 n2 : ℕ) [NeZero n1] [NeZero n2]
    (a b : ZMod n1 × ZMod n2 → R) : ZMod n1 × ZMod n2 → R :=
  fun k => ∑ j : ZMod n1 × ZMod n2, a j * b (k - j)

/-- Zero-padded embedding of an integer-indexed image onto the cyclic
grid, through the coefficient embedding `f : ℚ →+* R`. -/
def embedGrid {R : Type} [Field R] (n1 n2 : ℕ) [NeZero n1] [NeZero n2]
    (f : ℚ →+* R) (M : ℤ → ℤ → ℚ) : ZMod n1 × ZMod n2 → R :=
  fun j => f (M (j.1.val : ℤ) (j.2.val : ℤ))

/-- Modelled from the spec: the FFT-based convolution strategy — embed
the kernel and the morphology on the padded grid, transform both,
multiply pointwise, transform back. -/
def fftConvolve {R : Type} [Field R] (n1 n2 : ℕ) [NeZero n1] [NeZero n2]
    (z1 z2 : R) (f : ℚ →+* R) (K : Kern) (M : ℤ → ℤ → ℚ) :
    ZMod n1 × ZMod n2 → R :=
  invDft2 n1 n2 z1 z2 fun k =>
    dft2 n1 n2 z1 z2 (embedGrid n1 n2 f K.toFun) k *
      dft2 n1 n2 z1 z2 (embedGrid n1 n2 f M) k

/-- A sample 1×1 kernel of weight `2`. -/
def sampleKern : Kern :=
  { support := {(0, 0)}, val := fun _ => 2 }

/-- A sample 2×2 morphology, zero outside its window. -/
def sampleM : ℤ → ℤ → ℚ :=
  fun y x => if 0 ≤ y ∧ y < 2 ∧ 0 ≤ x ∧ x < 2 then ((y + 2 * x + 1 : ℤ) : ℚ) else 0

/-! ## Concrete instances used to witness the theorems on sample data -/

/-- A sample vector: entries `3, 0, 5`. -/
def sampleVec : Fin 3 → ℚ :=
  fun i => if i.val = 2 then 5 else if i.val = 0 then 3 else 0

/-- A sample component with no kernel. -/
def sampleComp : Component 1 :=
  { sed := fun _ => 2
    morph := fun y x => ((y + x : ℤ) : ℚ)
    bb := { y0 := 0, x0 := 0, h := 2, w := 2 }
    kernel := none
    constraints := [ConstraintKind.positivity]
    center := (0, 0)
    fixSed := false }

/-- A sample empty blend on a 1×1 scene. -/
def sampleBlend : Blend 1 :=
  { components := []
    cube := fun _ _ _ => 0
    weights := fun _ _ _ => 1
    scene := { y0 := 0, x0 := 0, h := 1, w := 1 }
    it := 0
    sedStep := 1
    morphStep := 1 }

/-- A sample 8×8 scene at the origin. -/
def scene1 : Box :=
  { y0 := 0, x0 := 0, h := 8, w := 8 }

/-- A sample single-band cube with flux `10` at the origin pixel only. -/
def cube1 : Fin 1 → ℤ → ℤ → ℚ :=
  fun _ y x => if y = 0 ∧ x = 0 then 10 else 0

/-- A sample per-band background RMS of `1`. -/
def bgRms1 : Fin 1 → ℚ :=
  fun _ => 1

/-- All components of a blend have their SED held fixed (the PSF-matching
configuration). -/
def AllFixed {B : ℕ} (bl : Blend B) : Prop :=
  ∀ c ∈ bl.components, c.fixSed = true

/-! ## Helper lemmas -/

theorem prox_plus_nonneg {n : ℕ} (x : Fin n → ℚ) (i : Fin n) :
    0 ≤ prox_plus x i :=
  le_max_right _ _

theorem prox_plus_idem {n : ℕ} (x : Fin n → ℚ) :
    prox_plus (prox_plus x) = prox_plus x := by
  funext i
  show max (max (x i) 0) 0 = max (x i) 0
  rw [max_assoc, max_self]

theorem prox_plus_of_nonneg {n : ℕ} (x : Fin n → ℚ) (h : ∀ i, 0 ≤ x i) :
    prox_plus x = x :=
  funext fun i => max_eq_left (h i)

theorem monotonicScan_idem (prev : ℚ) (l : List ℚ) :
    monotonicScan prev (monotonicScan prev l) = monotonicScan prev l := by
  induction l generalizing prev with
  | nil => rfl
  | cons a t ih =>
    show min (min a prev) prev :: _ = min a prev :: _
    rw [min_assoc, min_self]
    exact congrArg _ (ih (min a prev))

theorem monotonicScan_chain (prev : ℚ) (l : List ℚ) :
    List.Chain' (· ≥ ·) (prev :: monotonicScan prev l) := by
  induction l generalizing prev with
  | nil => exact List.chain'_singleton prev
  | cons a t ih =>
    exact List.chain'_cons.mpr ⟨min_le_right a prev, ih (min a prev)⟩

theorem convolve_delta (M : ℤ → ℤ → ℚ) (y x : ℤ) :
    convolve deltaKern M y x = M y x := by
  simp [convolve, deltaKern]

theorem convMetric_nonneg (a b : ℚ) : 0 ≤ convMetric a b := by
  unfold convMetric
  split
  · exact abs_nonneg _
  · exact div_nonneg (abs_nonneg _) (abs_nonneg _)

theorem prox_symmetry_idem {h w : ℕ} (x : Fin h → Fin w → ℚ) :
    prox_symmetry (prox_symmetry x) = prox_symmetry x := by
  funext i j
  show (prox_symmetry x i j + prox_symmetry x i.rev j.rev) / 2 = _
  unfold prox_symmetry
  rw [Fin.rev_rev, Fin.rev_rev]
  ring

theorem proj_sed_idem {n : ℕ} (x : Fin n → ℚ) :
    proj_sed (proj_sed x) = proj_sed x := by
  by_cases hs : (∑ i, prox_plus x i) = 0
  · have hx : proj_sed x = prox_plus x := by rw [proj_sed, if_pos hs]
    rw [hx, proj_sed, prox_plus_idem, hs, if_pos rfl]
  · have hx : proj_sed x = fun i => prox_plus x i / ∑ i, prox_plus x i := by
      rw [proj_sed, if_neg hs]
    have hnn : ∀ i, 0 ≤ prox_plus x i / ∑ i, prox_plus x i := by
      intro i
      refine div_nonneg (prox_plus_nonneg x i) ?_
      exact Finset.sum_nonneg fun j _ => prox_plus_nonneg x j
    have hclamp : prox_plus (fun i => prox_plus x i / ∑ i, prox_plus x i)
        = fun i => prox_plus x i / ∑ i, prox_plus x i :=
      prox_plus_of_nonneg _ hnn
    have hsum : (∑ i, prox_plus x i / ∑ i, prox_plus x i) = 1 := by
      rw [← Finset.sum_div, div_self hs]
    rw [hx, proj_sed, hclamp, hsum]
    rw [if_neg one_ne_zero]
    funext i
    exact div_one _

/-! ## The ranking order behind the L0 hard-threshold -/

theorem better_irrefl {n : ℕ} (x : Fin n → ℚ) (i : Fin n) : ¬ better x i i := by
  unfold better
  simp

theorem better_trans {n : ℕ} (x : Fin n → ℚ) {t i j : Fin n}
    (h1 : better x t i) (h2 : better x i j) : better x t j := by
  rcases h1 with h1 | ⟨h1e, h1l⟩ <;> rcases h2 with h2 | ⟨h2e, h2l⟩
  · exact Or.inl (lt_trans h2 h1)
  · exact Or.inl (h2e ▸ h1)
  · exact Or.inl (h1e ▸ h2)
  · exact Or.inr ⟨h1e.trans h2e, lt_trans h1l h2l⟩

theorem better_total {n : ℕ} (x : Fin n → ℚ) {i j : Fin n} (hij : i ≠ j) :
    better x i j ∨ better x j i := by
  rcases lt_trichotomy (|x i|) (|x j|) with h | h | h
  · exact Or.inr (Or.inl h)
  · rcases lt_or_gt_of_ne hij with hl | hl
    · exact Or.inl (Or.inr ⟨h, hl⟩)
    · exact Or.inr (Or.inr ⟨h.symm, hl⟩)
  · exact Or.inl (Or.inl h)

theorem countBetter_lt {n : ℕ} (x : Fin n → ℚ) (i : Fin n) :
    countBetter x i < n := by
  have hsub : Finset.univ.filter (fun j => better x j i) ⊆
      Finset.univ.erase i := by
    intro j hj
    rw [Finset.mem_filter] at hj
    refine Finset.mem_erase.mpr ⟨?_, Finset.mem_univ j⟩
    rintro rfl
    exact better_irrefl x _ hj.2
  calc countBetter x i ≤ (Finset.univ.erase i).card := Finset.card_le_card hsub
    _ = n - 1 := by rw [Finset.card_erase_of_mem (Finset.mem_univ i)]; simp
    _ < n := Nat.sub_lt i.pos one_pos

theorem countBetter_lt_of_better {n : ℕ} (x : Fin n → ℚ) {i j : Fin n}
    (h : better x i j) : countBetter x i < countBetter x j := by
  have hnotmem : i ∉ Finset.univ.filter (fun t => better x t i) := by
    rw [Finset.mem_filter]
    rintro ⟨-, hbad⟩
    exact better_irrefl x i hbad
  have hsub : insert i (Finset.univ.filter (fun t => better x t i)) ⊆
      Finset.univ.filter (fun t => better x t j) := by
    intro t ht
    rcases Finset.mem_insert.mp ht with rfl | ht
    · exact Finset.mem_filter.mpr ⟨Finset.mem_univ t, h⟩
    · rw [Finset.mem_filter] at ht
      exact Finset.mem_filter.mpr ⟨Finset.mem_univ t, better_trans x ht.2 h⟩
  have := Finset.card_le_card hsub
  rw [Finset.card_insert_of_not_mem hnotmem] at this
  exact Nat.lt_of_succ_le this

theorem countBetter_injective {n : ℕ} (x : Fin n → ℚ) :
    Function.Injective (countBetter x) := by
  intro i j h
  by_contra hne
  rcases better_total x hne with hb | hb
  · exact absurd h (Nat.ne_of_lt (countBetter_lt_of_better x hb))
  · exact absurd h.symm (Nat.ne_of_lt (countBetter_lt_of_better x hb))

/-- The rank function as a map `Fin n → Fin n`. -/
theorem rank_bijective {n : ℕ} (x : Fin n → ℚ) :
    Function.Bijective (fun i => (⟨countBetter x i, countBetter_lt x i⟩ : Fin n)) :=
  Finite.injective_iff_bijective.mp
    (fun i j h => countBetter_injective x (congrArg Fin.val h))

theorem card_val_lt (n k : ℕ) :
    (Finset.univ.filter (fun i : Fin n => (i : ℕ) < k)).card = min k n := by
  rcases le_or_lt n k with h | h
  · rw [Finset.filter_true_of_mem (fun i _ => lt_of_lt_of_le i.isLt h)]
    simp [Nat.min_eq_right h]
  · have hio : Finset.univ.filter (fun i : Fin n => (i : ℕ) < k) =
        Finset.Iio (⟨k, h⟩ : Fin n) := by
      ext i
      simp [Fin.lt_def]
    rw [hio, Fin.card_Iio]
    simp [Nat.min_eq_left h.le]

theorem card_countBetter_lt {n : ℕ} (x : Fin n → ℚ) (k : ℕ) :
    (Finset.univ.filter (fun i => countBetter x i < k)).card = min k n := by
  rw [← card_val_lt n k]
  apply Finset.card_bij
    (fun i _ => (⟨countBetter x i, countBetter_lt x i⟩ : Fin n))
  · intro i hi
    rw [Finset.mem_filter] at hi
    exact Finset.mem_filter.mpr ⟨Finset.mem_univ _, hi.2⟩
  · intro i _ j _ h
    exact countBetter_injective x (congrArg Fin.val h)
  · intro m hm
    rw [Finset.mem_filter] at hm
    obtain ⟨i, hi⟩ := (rank_bijective x).2 m
    refine ⟨i, Finset.mem_filter.mpr ⟨Finset.mem_univ _, ?_⟩, hi⟩
    have : countBetter x i = (m : ℕ) := congrArg Fin.val hi
    omega

theorem prox_hard_cases {n : ℕ} (k : ℕ) (x : Fin n → ℚ) (i : Fin n) :
    prox_hard k x i = x i ∨ prox_hard k x i = 0 := by
  unfold prox_hard
  split
  · exact Or.inl rfl
  · exact Or.inr rfl

theorem prox_hard_ne_zero {n : ℕ} {k : ℕ} {x : Fin n → ℚ} {i : Fin n} :
    prox_hard k x i ≠ 0 ↔ countBetter x i < k ∧ x i ≠ 0 := by
  unfold prox_hard
  split <;> simp_all

theorem prox_hard_eq_of_ne_zero {n : ℕ} {k : ℕ} {x : Fin n → ℚ} {i : Fin n}
    (h : prox_hard k x i ≠ 0) : prox_hard k x i = x i := by
  unfold prox_hard at h ⊢
  split <;> simp_all

theorem prox_hard_idem {n : ℕ} (k : ℕ) (x : Fin n → ℚ) :
    prox_hard k (prox_hard k x) = prox_hard k x := by
  funext i
  by_cases hPi : prox_hard k x i = 0
  · show (if countBetter (prox_hard k x) i < k then prox_hard k x i else 0)
        = prox_hard k x i
    rw [hPi]
    split <;> rfl
  · have hkept := prox_hard_ne_zero.mp hPi
    have hval : prox_hard k x i = x i := prox_hard_eq_of_ne_zero hPi
    have hsub : Finset.univ.filter (fun j => better (prox_hard k x) j i) ⊆
        Finset.univ.filter (fun j => better x j i) := by
      intro j hj
      rw [Finset.mem_filter] at hj
      refine Finset.mem_filter.mpr ⟨Finset.mem_univ _, ?_⟩
      have habs : |prox_hard k x i| < |prox_hard k x j| ∨
          (|prox_hard k x j| = |prox_hard k x i| ∧ j < i) := hj.2
      have hipos : 0 < |prox_hard k x i| := by
        rw [hval]
        exact abs_pos.mpr hkept.2
      have hjpos : 0 < |prox_hard k x j| := by
        rcases habs with hlt | ⟨heq, -⟩
        · exact lt_trans hipos hlt
        · rw [heq]
          exact hipos
      have hjne : prox_hard k x j ≠ 0 := abs_pos.mp hjpos
      have hjval : prox_hard k x j = x j := prox_hard_eq_of_ne_zero hjne
      rw [hval, hjval] at habs
      exact habs
    have hle : countBetter (prox_hard k x) i ≤ countBetter x i :=
      Finset.card_le_card hsub
    show (if countBetter (prox_hard k x) i < k then prox_hard k x i else 0)
        = prox_hard k x i
    rw [if_pos (lt_of_le_of_lt hle hkept.1)]

theorem suppCard_prox_hard {n : ℕ} (k : ℕ) (x : Fin n → ℚ) :
    suppCard (prox_hard k x) = min k (suppCard x) := by
  have hset : Finset.univ.filter (fun i => prox_hard k x i ≠ 0) =
      Finset.univ.filter (fun i => countBetter x i < k) ∩
        Finset.univ.filter (fun i => x i ≠ 0) := by
    rw [← Finset.filter_and]
    apply Finset.filter_congr
    intro i _
    exact ⟨fun h => prox_hard_ne_zero.mp h, fun h => prox_hard_ne_zero.mpr h⟩
  rcases le_or_lt k (suppCard x) with hk | hk
  · -- at least k nonzero entries: every kept index is nonzero
    have hsub : Finset.univ.filter (fun i => countBetter x i < k) ⊆
        Finset.univ.filter (fun i => x i ≠ 0) := by
      intro i hi
      rw [Finset.mem_filter] at hi
      refine Finset.mem_filter.mpr ⟨Finset.mem_univ _, ?_⟩
      intro h0
      have hbeat : Finset.univ.filter (fun j => x j ≠ 0) ⊆
          Finset.univ.filter (fun j => better x j i) := by
        intro j hj
        rw [Finset.mem_filter] at hj
        refine Finset.mem_filter.mpr ⟨Finset.mem_univ _, Or.inl ?_⟩
        rw [h0, abs_zero]
        exact abs_pos.mpr hj.2
      have := Finset.card_le_card hbeat
      have hge : k ≤ countBetter x i := le_trans hk this
      omega
    rw [suppCard, hset, Finset.inter_eq_left.mpr hsub, card_countBetter_lt]
    have hn : suppCard x ≤ n := by
      have := Finset.card_filter_le (Finset.univ : Finset (Fin n))
        (fun i => x i ≠ 0)
      simpa [suppCard] using this
    omega
  · -- fewer than k nonzero entries: every nonzero index is kept
    have hsub : Finset.univ.filter (fun i => x i ≠ 0) ⊆
        Finset.univ.filter (fun i => countBetter x i < k) := by
      intro i hi
      rw [Finset.mem_filter] at hi
      refine Finset.mem_filter.mpr ⟨Finset.mem_univ _, ?_⟩
      have hbeat : Finset.univ.filter (fun j => better x j i) ⊆
          (Finset.univ.filter (fun j => x j ≠ 0)).erase i := by
        intro j hj
        rw [Finset.mem_filter] at hj
        refine Finset.mem_erase.mpr ⟨?_, Finset.mem_filter.mpr ⟨Finset.mem_univ _, ?_⟩⟩
        · rintro rfl
          exact better_irrefl x _ hj.2
        · rcases hj.2 with hlt | ⟨heq, -⟩
          · intro h0
            rw [h0, abs_zero] at hlt
            exact absurd (lt_of_le_of_lt (abs_nonneg _) hlt) (lt_irrefl 0)
          · intro h0
            rw [h0, abs_zero] at heq
            exact hi.2 (abs_eq_zero.mp heq.symm)
      have hcard := Finset.card_le_card hbeat
      have hmem : i ∈ Finset.univ.filter (fun j => x j ≠ 0) :=
        Finset.mem_filter.mpr ⟨Finset.mem_univ _, hi.2⟩
      rw [Finset.card_erase_of_mem hmem] at hcard
      have : countBetter x i ≤ suppCard x - 1 := hcard
      have hpos : 1 ≤ suppCard x := Finset.card_pos.mpr ⟨i, hmem⟩
      omega
    rw [suppCard, hset, Finset.inter_eq_right.mpr hsub]
    have hsx : suppCard x = (Finset.univ.filter (fun i => x i ≠ 0)).card := rfl
    omega

/-! ## Claim theorems -/

/-- C3 (corrected): each true constraint projection in the operator
library — non-negativity clamp, L0 hard-threshold, approximate radial
monotonicity, symmetry averaging, SED simplex — is idempotent:
`P (P x) = P x`.  The L1 soft-threshold is excluded: it is a proximal
(shrinkage) operator, not a projection, and applying it twice shrinks
twice (see the counterexample). -/
theorem C3_projection_idempotence :
    (∀ (n : ℕ) (x : Fin n → ℚ), prox_plus (prox_plus x) = prox_plus x) ∧
    (∀ (n k : ℕ) (x : Fin n → ℚ), prox_hard k (prox_hard k x) = prox_hard k x) ∧
    (∀ m : RayMorph, prox_monotonic (prox_monotonic m) = prox_monotonic m) ∧
    (∀ (h w : ℕ) (x : Fin h → Fin w → ℚ),
      prox_symmetry (prox_symmetry x) = prox_symmetry x) ∧
    (∀ (n : ℕ) (x : Fin n → ℚ), proj_sed (proj_sed x) = proj_sed x) := by
  refine ⟨fun n x => prox_plus_idem x, fun n k x => prox_hard_idem k x, ?_,
    fun h w x => prox_symmetry_idem x, fun n x => proj_sed_idem x⟩
  intro m
  show RayMorph.mk m.peak ((m.rays.map (monotonicScan m.peak)).map (monotonicScan m.peak))
      = RayMorph.mk m.peak (m.rays.map (monotonicScan m.peak))
  rw [List.map_map]
  exact congrArg (RayMorph.mk m.peak)
    (List.map_congr_left fun a _ => monotonicScan_idem m.peak a)

/-- C3 counterexample: the claim quantifies over every operator in the
proximal library including the L1 soft-threshold, but the soft-threshold
is not idempotent: at the vector `(3)` with threshold `1`, one
application gives `(2)` and a second application gives `(1)`. -/
theorem C3_soft_threshold_not_idempotent :
    prox_soft 1 (prox_soft 1 (fun _ : Fin 1 => (3 : ℚ))) ≠
      prox_soft 1 (fun _ : Fin 1 => (3 : ℚ)) := by
  intro h
  have h0 := congrFun h 0
  simp only [prox_soft] at h0
  norm_num at h0

/-- C4: the L0 hard-threshold with budget `k` returns an array with
exactly `k` nonzero entries (or fewer when the input has fewer than `k`
nonzero entries); the surviving entries keep their original values, and
every survivor outranks every zeroed nonzero entry in the
largest-magnitude order with ties broken by index. -/
theorem C4_hard_threshold_spec (n k : ℕ) (x : Fin n → ℚ) :
    suppCard (prox_hard k x) = min k (suppCard x) ∧
    (∀ i, prox_hard k x i ≠ 0 → prox_hard k x i = x i) ∧
    (∀ i j, prox_hard k x i ≠ 0 → prox_hard k x j = 0 → x j ≠ 0 →
      better x i j) := by
  refine ⟨suppCard_prox_hard k x, fun i h => prox_hard_eq_of_ne_zero h, ?_⟩
  intro i j hi hj hxj
  have hki : countBetter x i < k := (prox_hard_ne_zero.mp hi).1
  have hkj : ¬ countBetter x j < k := by
    intro hk
    exact (prox_hard_ne_zero.mpr ⟨hk, hxj⟩) hj
  have hij : i ≠ j := by
    rintro rfl
    exact hkj hki
  rcases better_total x hij with hb | hb
  · exact hb
  · have := countBetter_lt_of_better x hb
    omega

/-- C4 witness: on the vector `(3, 0, 5)` with budget `1`, exactly one
entry survives, it keeps its value `5`, and it outranks the zeroed
entry `3`. -/
theorem C4_hard_threshold_spec_witness :
    suppCard (prox_hard 1 sampleVec) = min 1 (suppCard sampleVec) ∧
    prox_hard 1 sampleVec 2 = sampleVec 2 ∧
    better sampleVec 2 0 := by
  obtain ⟨h1, h2, h3⟩ := C4_hard_threshold_spec 3 1 sampleVec
  exact ⟨h1, h2 2 (by decide), h3 2 0 (by decide) (by decide) (by decide)⟩

/-- C5: for a component constructed with no kernel, convolution is the
identity: `get_model` is exactly the outer product of the SED with the
morphology, placed into the bounding box and zero elsewhere. -/
theorem C5_no_kernel_identity {B : ℕ} (c : Component B) (hk : c.kernel = none)
    (b : Fin B) (y x : ℤ) :
    c.getModel b y x =
      if c.bb.mem (y, x) then c.sed b * c.morph y x else 0 := by
  have hkd : c.kernelOrDelta b = deltaKern := by
    unfold Component.kernelOrDelta
    rw [hk]
  unfold Component.getModel
  rw [hkd]
  rw [show convolve deltaKern c.morph y x = c.morph y x from convolve_delta c.morph y x]

/-- C5 witness: the sample kernel-free component. -/
theorem C5_no_kernel_identity_witness :
    sampleComp.getModel 0 1 1 =
      if sampleComp.bb.mem (1, 1) then sampleComp.sed 0 * sampleComp.morph 1 1
      else 0 :=
  C5_no_kernel_identity sampleComp rfl 0 1 1

/-- C6: after the approximate-mode radial monotonicity projection, the
morphology is non-increasing with radius along every ray from the peak:
for radii `r1 < r2` along a ray (radius `0` being the peak itself),
the value at `r2` is at most the value at `r1`. -/
theorem C6_monotonic_projection (m : RayMorph) (ray : List ℚ)
    (hray : ray ∈ (prox_monotonic m).rays)
    (r1 r2 : Fin ((prox_monotonic m).peak :: ray).length) (h12 : r1 < r2) :
    ((prox_monotonic m).peak :: ray).get r2 ≤
      ((prox_monotonic m).peak :: ray).get r1 := by
  obtain ⟨r0, -, rfl⟩ := List.mem_map.mp hray
  have hchain : List.Chain' (· ≥ ·) (m.peak :: monotonicScan m.peak r0) :=
    monotonicScan_chain m.peak r0
  have hpw := List.chain'_iff_pairwise.mp hchain
  exact List.pairwise_iff_get.mp hpw r1 r2 h12

/-- C6 witness: the morphology with peak `5` and one ray `[3, 4]`
projects to the ray `[3, 3]`, which is non-increasing. -/
theorem C6_monotonic_projection_witness :
    ((prox_monotonic ⟨5, [[3, 4]]⟩).peak :: [(3 : ℚ), 3]).get ⟨2, by decide⟩ ≤
      ((prox_monotonic ⟨5, [[3, 4]]⟩).peak :: [(3 : ℚ), 3]).get ⟨1, by decide⟩ :=
  C6_monotonic_projection ⟨5, [[3, 4]]⟩ [3, 3] (by decide)
    ⟨1, by decide⟩ ⟨2, by decide⟩ (by decide)

/-! ## Solver loop lemmas -/

theorem it_iterate {B : ℕ} (bl : Blend B) (k : ℕ) :
    (Blend.step^[k] bl).it = bl.it + k := by
  induction k with
  | zero => rfl
  | succ k ih =>
    rw [Function.iterate_succ_apply']
    show (Blend.step^[k] bl).it + 1 = bl.it + (k + 1)
    omega

theorem fitAux_maxIter {B : ℕ} (n : ℕ) (bl : Blend B) (eRel : ℚ)
    (h : ∀ k < n, eRel ≤ convMetric ((Blend.step)^[k] bl).totalFlux
      ((Blend.step)^[k + 1] bl).totalFlux) :
    Blend.fitAux n bl eRel = (Blend.step^[n] bl, FitStatus.maxIterReached) := by
  induction n generalizing bl with
  | zero => rfl
  | succ n ih =>
    show (if convMetric bl.totalFlux bl.step.totalFlux < eRel then
        (bl.step, FitStatus.converged)
      else Blend.fitAux n bl.step eRel) = _
    have h0 : eRel ≤ convMetric bl.totalFlux bl.step.totalFlux :=
      h 0 (Nat.succ_pos n)
    rw [if_neg (not_lt.mpr h0)]
    exact ih bl.step fun k hk => h (k + 1) (by omega)

/-- Any blend-level observation preserved by one step under an invariant
is preserved by the whole fit loop. -/
theorem fitAux_inv {B : ℕ} {α : Sort _} (f : Blend B → α) (P : Blend B → Prop)
    (hP : ∀ bl : Blend B, P bl → P bl.step)
    (hf : ∀ bl : Blend B, P bl → f bl.step = f bl)
    (n : ℕ) (bl : Blend B) (eRel : ℚ) (h : P bl) :
    f (Blend.fitAux n bl eRel).1 = f bl := by
  induction n generalizing bl with
  | zero => rfl
  | succ n ih =>
    show f (if convMetric bl.totalFlux bl.step.totalFlux < eRel then
        (bl.step, FitStatus.converged)
      else Blend.fitAux n bl.step eRel).1 = f bl
    split
    · exact hf bl h
    · exact (ih bl.step (hP bl h)).trans (hf bl h)

theorem step_bb {B : ℕ} (bl : Blend B) :
    ((bl.step).components.map fun c => c.bb) =
      bl.components.map fun c => c.bb := by
  show ((bl.components.map _).map fun c : Component B => c.bb)
      = bl.components.map fun c => c.bb
  rw [List.map_map]
  rfl

theorem step_kernel {B : ℕ} (bl : Blend B) :
    ((bl.step).components.map fun c => c.kernel) =
      bl.components.map fun c => c.kernel := by
  show ((bl.components.map _).map fun c : Component B => c.kernel)
      = bl.components.map fun c => c.kernel
  rw [List.map_map]
  rfl

theorem step_constraints {B : ℕ} (bl : Blend B) :
    ((bl.step).components.map fun c => c.constraints) =
      bl.components.map fun c => c.constraints := by
  show ((bl.components.map _).map fun c : Component B => c.constraints)
      = bl.components.map fun c => c.constraints
  rw [List.map_map]
  rfl

theorem step_allFixed {B : ℕ} (bl : Blend B) (h : AllFixed bl) :
    AllFixed bl.step := by
  intro c hc
  rw [Blend.step] at hc
  simp only [List.mem_map] at hc
  obtain ⟨c0, hc0, rfl⟩ := hc
  show c0.fixSed = true
  exact h c0 hc0

theorem step_sed_fixed {B : ℕ} (bl : Blend B) (h : AllFixed bl) :
    ((bl.step).components.map fun c => c.sed) =
      bl.components.map fun c => c.sed := by
  show ((bl.components.map _).map fun c : Component B => c.sed)
      = bl.components.map fun c => c.sed
  rw [List.map_map]
  apply List.map_congr_left
  intro c hc
  show (Component.update c _ _ _ _).sed = c.sed
  unfold Component.update
  rw [h c hc]
  simp

/-! ## Claims on the solver -/

/-- C1: when `max_iter` iterations complete without the convergence
metric dropping below `e_rel`, `fit` terminates (it is a total function:
no error is raised), the returned blend is the `max_iter`-fold iterate —
so `get_model` reports its best current model — the status is
`MaxIterReached`, and the iteration-count accessor advances by exactly
`max_iter` (reporting `max_iter` for a freshly constructed blend). -/
theorem C1_max_iter_reached {B : ℕ} (bl : Blend B) (maxIter : ℕ) (eRel : ℚ)
    (h : ∀ k < maxIter, eRel ≤ convMetric ((Blend.step)^[k] bl).totalFlux
      ((Blend.step)^[k + 1] bl).totalFlux) :
    bl.fit maxIter eRel = (Blend.step^[maxIter] bl, FitStatus.maxIterReached) ∧
    (∀ b y x, (bl.fit maxIter eRel).1.getModel b y x =
      (Blend.step^[maxIter] bl).getModel b y x) ∧
    (bl.fit maxIter eRel).1.it = bl.it + maxIter ∧
    (bl.it = 0 → (bl.fit maxIter eRel).1.it = maxIter) := by
  have hfit : bl.fit maxIter eRel =
      (Blend.step^[maxIter] bl, FitStatus.maxIterReached) :=
    fitAux_maxIter maxIter bl eRel h
  refine ⟨hfit, fun b y x => by rw [hfit], ?_, ?_⟩
  · rw [hfit]
    exact it_iterate bl maxIter
  · intro h0
    rw [hfit, it_iterate bl maxIter, h0, Nat.zero_add]

/-- C1 witness: the sample blend with `e_rel = 0` never converges and
reaches the two-iteration cap. -/
theorem C1_max_iter_reached_witness :
    sampleBlend.fit 2 0 = (Blend.step^[2] sampleBlend, FitStatus.maxIterReached) ∧
    (∀ b y x, (sampleBlend.fit 2 0).1.getModel b y x =
      (Blend.step^[2] sampleBlend).getModel b y x) ∧
    (sampleBlend.fit 2 0).1.it = sampleBlend.it + 2 ∧
    (sampleBlend.it = 0 → (sampleBlend.fit 2 0).1.it = 2) :=
  C1_max_iter_reached sampleBlend 2 0 fun k _ => convMetric_nonneg _ _

/-- C2: a peak without statistically significant flux is exactly the
failure mode of source construction — construction fails with a
`SourceInitError` carrying the offending peak coordinate if and only if
the flux is not significant — and the caller's catch-and-skip loop
yields a blend with one component per peak that did not raise. -/
theorem C2_source_init_skip {B : ℕ} (scene : Box) (cube : Fin B → ℤ → ℤ → ℚ)
    (bgRms : Fin B → ℚ) (kernel : Option (Fin B → Kern)) (s : ℕ) :
    (∀ center, (¬ significantFlux cube bgRms center) ↔
      ∃ e, mkExtendedSource center scene cube bgRms kernel s = Except.error e) ∧
    (∀ center e,
      mkExtendedSource center scene cube bgRms kernel s = Except.error e →
      e.center = center) ∧
    (∀ peaks : List (ℤ × ℤ),
      (mkBlend (initSources peaks scene cube bgRms kernel s) scene 1 1).components.length =
        peaks.length -
          peaks.countP fun p => decide (¬ significantFlux cube bgRms (peakToCenter p))) := by
  refine ⟨?_, ?_, ?_⟩
  · intro center
    constructor
    · intro hns
      refine ⟨{ center := center }, ?_⟩
      rw [mkExtendedSource, if_neg hns]
    · rintro ⟨e, he⟩ hs
      rw [mkExtendedSource, if_pos hs] at he
      exact Except.noConfusion he
  · intro center e he
    rw [mkExtendedSource] at he
    split at he
    · exact Except.noConfusion he
    · cases he
      rfl
  · intro peaks
    show (initSources peaks scene cube bgRms kernel s).length = _
    induction peaks with
    | nil => rfl
    | cons p t ih =>
      have hc : (t.countP fun p => decide (¬ significantFlux cube bgRms (peakToCenter p)))
          ≤ t.length := List.countP_le_length _
      by_cases hp : significantFlux cube bgRms (peakToCenter p)
      · have hok : ∃ c, (mkExtendedSource (peakToCenter p) scene cube bgRms kernel s).toOption
            = some c := by
          rw [mkExtendedSource, if_pos hp]
          exact ⟨_, rfl⟩
        obtain ⟨c, hcs⟩ := hok
        rw [initSources, List.filterMap_cons, hcs]
        have hcnt : ((p :: t).countP fun q =>
              decide (¬ significantFlux cube bgRms (peakToCenter q)))
            = t.countP fun q =>
              decide (¬ significantFlux cube bgRms (peakToCenter q)) := by
          rw [List.countP_cons]
          simp [hp]
        rw [hcnt]
        show (initSources t scene cube bgRms kernel s).length + 1
            = t.length + 1 - _
        rw [ih]
        omega
      · have hnone : (mkExtendedSource (peakToCenter p) scene cube bgRms kernel s).toOption
            = none := by
          rw [mkExtendedSource, if_neg hp]
          rfl
        rw [initSources, List.filterMap_cons, hnone]
        have hcnt : ((p :: t).countP fun q =>
              decide (¬ significantFlux cube bgRms (peakToCenter q)))
            = (t.countP fun q =>
              decide (¬ significantFlux cube bgRms (peakToCenter q))) + 1 := by
          rw [List.countP_cons]
          simp [hp]
        rw [hcnt]
        show (initSources t scene cube bgRms kernel s).length
            = t.length + 1 - _
        rw [ih]
        omega

/-- C2 witness: of the two sample peaks, the origin peak has significant
flux and the far peak does not; the blend built by the skip loop has
`2 - 1` components. -/
theorem C2_source_init_skip_witness :
    (∃ e, mkExtendedSource ((5 : ℤ), (5 : ℤ)) scene1 cube1 bgRms1 none 1 =
      Except.error e) ∧
    (mkBlend (initSources [((0 : ℤ), (0 : ℤ)), (5, 5)] scene1 cube1 bgRms1 none 1)
        scene1 1 1).components.length =
      ([((0 : ℤ), (0 : ℤ)), (5, 5)] : List (ℤ × ℤ)).length -
        ([((0 : ℤ), (0 : ℤ)), (5, 5)] : List (ℤ × ℤ)).countP
          (fun p => decide (¬ significantFlux cube1 bgRms1 (peakToCenter p))) :=
  ⟨((C2_source_init_skip scene1 cube1 bgRms1 none 1).1 (5, 5)).mp (by decide),
    (C2_source_init_skip scene1 cube1 bgRms1 none 1).2.2 [(0, 0), (5, 5)]⟩

/-- C9: every component's bounding box is clipped into the scene extent
at construction (clipping, not wrapping), and throughout `fit` the
bounding boxes never change and no component is removed. -/
theorem C9_bounding_box_invariant :
    (∀ scene b : Box, (Box.clip scene b).inside scene) ∧
    (∀ (B : ℕ) (center : ℤ × ℤ) (scene : Box) (cube : Fin B → ℤ → ℤ → ℚ)
      (bgRms : Fin B → ℚ) (kernel : Option (Fin B → Kern)) (s : ℕ)
      (comp : Component B),
      mkExtendedSource center scene cube bgRms kernel s = Except.ok comp →
      comp.bb.inside scene) ∧
    (∀ (B : ℕ) (bl : Blend B) (maxIter : ℕ) (eRel : ℚ),
      (((bl.fit maxIter eRel).1.components.map fun c => c.bb) =
        bl.components.map fun c => c.bb) ∧
      (bl.fit maxIter eRel).1.components.length = bl.components.length) := by
  have hclip : ∀ scene b : Box, (Box.clip scene b).inside scene := by
    intro scene b p hp
    unfold Box.clip Box.mem at hp
    unfold Box.mem
    dsimp only at hp
    omega
  refine ⟨hclip, ?_, ?_⟩
  · intro B center scene cube bgRms kernel s comp h
    rw [mkExtendedSource] at h
    split at h
    · cases h
      exact hclip scene _
    · exact Except.noConfusion h
  · intro B bl maxIter eRel
    have hbb : ((bl.fit maxIter eRel).1.components.map fun c => c.bb) =
        bl.components.map fun c => c.bb :=
      fitAux_inv (fun bl => bl.components.map fun c => c.bb) (fun _ => True)
        (fun _ _ => trivial) (fun bl _ => step_bb bl) maxIter bl eRel trivial
    refine ⟨hbb, ?_⟩
    have := congrArg List.length hbb
    simpa using this

/-- C9 witness: a box poking over the scene edge is clipped inside; the
sample blend's (empty) component list is untouched by `fit`. -/
theorem C9_bounding_box_invariant_witness :
    scene1.mem ((0 : ℤ), (0 : ℤ)) ∧
    ((sampleBlend.fit 2 0).1.components.map fun c => c.bb) =
      sampleBlend.components.map fun c => c.bb :=
  ⟨C9_bounding_box_invariant.1 scene1 { y0 := -2, x0 := -2, h := 3, w := 3 }
      (0, 0) (by decide),
    (C9_bounding_box_invariant.2.2 1 sampleBlend 2 0).1⟩

/-- C10: peaks are `(x, y)` pairs, but the source constructor takes its
center in `(y, x)` order — the caller swaps the coordinates — so the
significance test reads the cube at row `p.2` (the peak's y), and the
fitted component's center accessor returns `(y, x)`. -/
theorem C10_center_convention {B : ℕ} (p : ℤ × ℤ) (scene : Box)
    (cube : Fin B → ℤ → ℤ → ℚ) (bgRms : Fin B → ℚ)
    (kernel : Option (Fin B → Kern)) (s : ℕ) :
    (significantFlux cube bgRms (peakToCenter p) ↔
      ∃ b, bgRms b < cube b p.2 p.1) ∧
    (∀ comp, mkExtendedSource (peakToCenter p) scene cube bgRms kernel s =
        Except.ok comp →
      comp.center = (p.2, p.1)) := by
  refine ⟨Iff.rfl, ?_⟩
  intro comp h
  rw [mkExtendedSource] at h
  split at h
  · cases h
    rfl
  · exact Except.noConfusion h

/-- C10 witness: the origin peak `(0, 0)`, swapped by the caller, yields
a component whose center accessor reports `(y, x) = (0, 0)`. -/
theorem C10_center_convention_witness :
    (significantFlux cube1 bgRms1 (peakToCenter ((0 : ℤ), (0 : ℤ))) ↔
      ∃ b, bgRms1 b < cube1 b 0 0) ∧
    ((mkExtendedSource (peakToCenter ((0 : ℤ), (0 : ℤ))) scene1 cube1 bgRms1
        none 1).toOption.map fun c => c.center) = some ((0 : ℤ), (0 : ℤ)) := by
  have h := C10_center_convention (B := 1) ((0 : ℤ), (0 : ℤ)) scene1 cube1 bgRms1 none 1
  refine ⟨h.1, ?_⟩
  cases heq : mkExtendedSource (peakToCenter ((0 : ℤ), (0 : ℤ))) scene1 cube1 bgRms1 none 1 with
  | error e =>
    rw [mkExtendedSource, if_pos (by decide)] at heq
    exact Except.noConfusion heq
  | ok comp =>
    simp [Except.toOption, h.2 comp heq]

/-- C8: `build_diff_kernels` assembles exactly one component per band —
each with a one-hot SED that the fit holds fixed, the target PSF as its
kernel, and an added L0-sparsity constraint on its morphology — into a
blend whose data cube is the PSF stack, runs `fit`, and returns the
fitted morphologies (the difference kernels) together with the
underlying blend. -/
theorem C8_build_diff_kernels {N : ℕ} (psfs : Fin N → ℤ → ℤ → ℚ)
    (target : Kern) (scene : Box) (l0k : ℕ) (sedStep morphStep : ℚ)
    (maxIter : ℕ) (eRel : ℚ) :
    (build_diff_kernels psfs target scene l0k sedStep morphStep maxIter eRel).2.components.length
        = N ∧
    ((build_diff_kernels psfs target scene l0k sedStep morphStep maxIter eRel).2.components.map
        fun c => c.sed) = (List.finRange N).map oneHotSed ∧
    ((build_diff_kernels psfs target scene l0k sedStep morphStep maxIter eRel).2.components.map
        fun c => c.kernel) = List.replicate N (some fun _ => target) ∧
    ((build_diff_kernels psfs target scene l0k sedStep morphStep maxIter eRel).2.components.map
        fun c => c.constraints) =
      List.replicate N [ConstraintKind.positivity, ConstraintKind.sparsityL0 l0k] ∧
    (build_diff_kernels psfs target scene l0k sedStep morphStep maxIter eRel).2.cube = psfs ∧
    (build_diff_kernels psfs target scene l0k sedStep morphStep maxIter eRel).1 =
      (build_diff_kernels psfs target scene l0k sedStep morphStep maxIter eRel).2.components.map
        fun c => c.morph := by
  have hfix : AllFixed (diffBlend psfs target scene l0k sedStep morphStep) := by
    intro c hc
    simp only [diffBlend, List.mem_map] at hc
    obtain ⟨b, -, rfl⟩ := hc
    rfl
  have hsed := fitAux_inv (fun bl => bl.components.map fun c => c.sed) AllFixed
    step_allFixed step_sed_fixed maxIter
    (diffBlend psfs target scene l0k sedStep morphStep) eRel hfix
  have hker := fitAux_inv (fun bl => bl.components.map fun c => c.kernel)
    (fun _ => True) (fun _ _ => trivial) (fun bl _ => step_kernel bl) maxIter
    (diffBlend psfs target scene l0k sedStep morphStep) eRel trivial
  have hcon := fitAux_inv (fun bl => bl.components.map fun c => c.constraints)
    (fun _ => True) (fun _ _ => trivial) (fun bl _ => step_constraints bl) maxIter
    (diffBlend psfs target scene l0k sedStep morphStep) eRel trivial
  have hcube := fitAux_inv (fun bl => bl.cube)
    (fun _ => True) (fun _ _ => trivial) (fun _ _ => rfl) maxIter
    (diffBlend psfs target scene l0k sedStep morphStep) eRel trivial
  have hsed2 : ((diffBlend psfs target scene l0k sedStep morphStep).components.map
      fun c => c.sed) = (List.finRange N).map oneHotSed := by
    show (((List.finRange N).map _).map fun c : Component N => c.sed) = _
    rw [List.map_map]
    rfl
  have hker2 : ((diffBlend psfs target scene l0k sedStep morphStep).components.map
      fun c => c.kernel) = List.replicate N (some fun _ => target) := by
    show (((List.finRange N).map _).map fun c : Component N => c.kernel) = _
    rw [List.map_map]
    have := List.map_const' (List.finRange N) (some fun _ : Fin N => target)
    rw [show ((fun c : Component N => c.kernel) ∘
        diffKernelComponent psfs target scene l0k) =
        (fun _ : Fin N => some fun _ : Fin N => target) from rfl]
    rw [this, List.length_finRange]
  have hcon2 : ((diffBlend psfs target scene l0k sedStep morphStep).components.map
      fun c => c.constraints) =
      List.replicate N [ConstraintKind.positivity, ConstraintKind.sparsityL0 l0k] := by
    show (((List.finRange N).map _).map fun c : Component N => c.constraints) = _
    rw [List.map_map]
    have := List.map_const' (List.finRange N)
      [ConstraintKind.positivity, ConstraintKind.sparsityL0 l0k]
    rw [show ((fun c : Component N => c.constraints) ∘
        diffKernelComponent psfs target scene l0k) =
        (fun _ : Fin N =>
          [ConstraintKind.positivity, ConstraintKind.sparsityL0 l0k]) from rfl]
    rw [this, List.length_finRange]
  have hsedAll : ((build_diff_kernels psfs target scene l0k sedStep morphStep maxIter eRel).2.components.map
      fun c => c.sed) = (List.finRange N).map oneHotSed := hsed.trans hsed2
  have hlen : (build_diff_kernels psfs target scene l0k sedStep morphStep maxIter eRel).2.components.length
      = N := by
    have h1 := congrArg List.length hsedAll
    simpa using h1
  exact ⟨hlen, hsedAll, hker.trans hker2, hcon.trans hcon2, hcube, rfl⟩

/-! ## Discrete Fourier analysis for the FFT strategy -/

theorem zmod_sum_val {n : ℕ} [NeZero n] {β : Type} [AddCommMonoid β]
    (f : ℕ → β) : (∑ j : ZMod n, f j.val) = ∑ i ∈ Finset.range n, f i :=
  Finset.sum_nbij' (fun j => j.val) (fun i => (i : ZMod n))
    (fun a _ => Finset.mem_range.mpr (ZMod.val_lt a))
    (fun _ _ => Finset.mem_univ _)
    (fun a _ => ZMod.natCast_rightInverse a)
    (fun i hi => ZMod.val_cast_of_lt (Finset.mem_range.mp hi))
    (fun _ _ => rfl)

theorem zmod_pow_sum {R : Type} [Field R] [DecidableEq R] {n : ℕ} [NeZero n]
    (x : R) (hx : x ^ n = 1) :
    (∑ j : ZMod n, x ^ j.val) = if x = 1 then (n : R) else 0 := by
  rw [zmod_sum_val (fun i => x ^ i)]
  by_cases h1 : x = 1
  · simp [h1]
  · rw [if_neg h1, geom_sum_eq h1, hx, sub_self, zero_div]

theorem root_pow_mod {R : Type} [Field R] {n : ℕ} {z : R}
    (h : IsPrimitiveRoot z n) {a b : ℕ} (hab : a ≡ b [MOD n]) :
    z ^ a = z ^ b := by
  have key : ∀ c : ℕ, z ^ c = z ^ (c % n) := by
    intro c
    conv_lhs => rw [← Nat.mod_add_div c n]
    rw [pow_add, pow_mul, h.pow_eq_one, one_pow, mul_one]
  rw [key a, key b, show a % n = b % n from hab]

theorem char_add {R : Type} [Field R] {n : ℕ} [NeZero n] {z : R}
    (h : IsPrimitiveRoot z n) (a b k : ZMod n) :
    z ^ ((a + b).val * k.val) = z ^ (a.val * k.val) * z ^ (b.val * k.val) := by
  rw [← pow_add]
  apply root_pow_mod h
  have h1 : (a + b).val ≡ a.val + b.val [MOD n] := by
    rw [ZMod.val_add]
    exact Nat.mod_modEq _ _
  have h2 := h1.mul_right k.val
  rw [add_mul] at h2
  exact h2

theorem dft_orthogonality {R : Type} [Field R] [DecidableEq R] {n : ℕ}
    [NeZero n] {z : R} (h : IsPrimitiveRoot z n) (t k : ZMod n) :
    (∑ j : ZMod n, z ^ (t.val * j.val) * z⁻¹ ^ (k.val * j.val))
      = if t = k then (n : R) else 0 := by
  have hz : z ≠ 0 := h.ne_zero (NeZero.ne n)
  have hterm : ∀ j : ZMod n, z ^ (t.val * j.val) * z⁻¹ ^ (k.val * j.val)
      = (z ^ t.val * z⁻¹ ^ k.val) ^ j.val := by
    intro j
    rw [pow_mul, pow_mul, ← mul_pow]
  rw [Finset.sum_congr rfl fun j _ => hterm j]
  have e1 : (z ^ t.val) ^ n = 1 := by
    rw [← pow_mul, mul_comm, pow_mul, h.pow_eq_one, one_pow]
  have e2 : (z⁻¹ ^ k.val) ^ n = 1 := by
    rw [← pow_mul, mul_comm, pow_mul, inv_pow, h.pow_eq_one, inv_one, one_pow]
  have hxn : (z ^ t.val * z⁻¹ ^ k.val) ^ n = 1 := by
    rw [mul_pow, e1, e2, one_mul]
  rw [zmod_pow_sum _ hxn]
  have hiff : z ^ t.val * z⁻¹ ^ k.val = 1 ↔ t = k := by
    rw [inv_pow, mul_inv_eq_one₀ (pow_ne_zero _ hz)]
    constructor
    · intro he
      exact ZMod.val_injective n (h.pow_inj (ZMod.val_lt t) (ZMod.val_lt k) he)
    · rintro rfl
      rfl
  rw [if_congr hiff rfl rfl]

theorem invDft2_dft2 {R : Type} [Field R] (n1 n2 : ℕ) [NeZero n1] [NeZero n2]
    {z1 z2 : R} (h1 : IsPrimitiveRoot z1 n1) (h2 : IsPrimitiveRoot z2 n2)
    (hn1 : (n1 : R) ≠ 0) (hn2 : (n2 : R) ≠ 0) (a : ZMod n1 × ZMod n2 → R) :
    invDft2 n1 n2 z1 z2 (dft2 n1 n2 z1 z2 a) = a := by
  classical
  funext k
  unfold invDft2 dft2
  rw [div_eq_iff (mul_ne_zero hn1 hn2)]
  have e1 : ∀ j : ZMod n1 × ZMod n2,
      (∑ t : ZMod n1 × ZMod n2,
          a t * (z1 ^ (t.1.val * j.1.val) * z2 ^ (t.2.val * j.2.val))) *
        (z1⁻¹ ^ (k.1.val * j.1.val) * z2⁻¹ ^ (k.2.val * j.2.val))
      = ∑ t : ZMod n1 × ZMod n2,
          a t * (z1 ^ (t.1.val * j.1.val) * z2 ^ (t.2.val * j.2.val)) *
            (z1⁻¹ ^ (k.1.val * j.1.val) * z2⁻¹ ^ (k.2.val * j.2.val)) :=
    fun j => Finset.sum_mul _ _ _
  rw [Finset.sum_congr rfl fun j _ => e1 j, Finset.sum_comm]
  have e2 : ∀ t : ZMod n1 × ZMod n2,
      (∑ j : ZMod n1 × ZMod n2,
          a t * (z1 ^ (t.1.val * j.1.val) * z2 ^ (t.2.val * j.2.val)) *
            (z1⁻¹ ^ (k.1.val * j.1.val) * z2⁻¹ ^ (k.2.val * j.2.val)))
      = a t *
          ((∑ j1 : ZMod n1, z1 ^ (t.1.val * j1.val) * z1⁻¹ ^ (k.1.val * j1.val)) *
            (∑ j2 : ZMod n2, z2 ^ (t.2.val * j2.val) * z2⁻¹ ^ (k.2.val * j2.val))) := by
    intro t
    rw [Finset.sum_mul_sum, Finset.mul_sum]
    rw [Fintype.sum_prod_type]
    apply Finset.sum_congr rfl
    intro j1 _
    rw [Finset.mul_sum]
    apply Finset.sum_congr rfl
    intro j2 _
    ring
  rw [Finset.sum_congr rfl fun t _ => e2 t]
  have e3 : ∀ t : ZMod n1 × ZMod n2,
      a t *
          ((∑ j1 : ZMod n1, z1 ^ (t.1.val * j1.val) * z1⁻¹ ^ (k.1.val * j1.val)) *
            (∑ j2 : ZMod n2, z2 ^ (t.2.val * j2.val) * z2⁻¹ ^ (k.2.val * j2.val)))
      = a t * ((if t.1 = k.1 then (n1 : R) else 0) *
          (if t.2 = k.2 then (n2 : R) else 0)) := by
    intro t
    rw [dft_orthogonality h1 t.1 k.1, dft_orthogonality h2 t.2 k.2]
  rw [Finset.sum_congr rfl fun t _ => e3 t]
  rw [Finset.sum_eq_single k]
  · rw [if_pos rfl, if_pos rfl]
  · intro t _ htk
    by_cases ht1 : t.1 = k.1
    · have ht2 : t.2 ≠ k.2 := by
        intro ht2
        exact htk (Prod.ext ht1 ht2)
      rw [if_neg ht2, mul_zero, mul_zero]
    · rw [if_neg ht1, zero_mul, mul_zero]
  · intro hk
    exact absurd (Finset.mem_univ k) hk

theorem dft2_cyclicConv {R : Type} [Field R] (n1 n2 : ℕ) [NeZero n1]
    [NeZero n2] {z1 z2 : R} (h1 : IsPrimitiveRoot z1 n1)
    (h2 : IsPrimitiveRoot z2 n2) (a b : ZMod n1 × ZMod n2 → R) :
    dft2 n1 n2 z1 z2 (cyclicConv n1 n2 a b)
      = fun k => dft2 n1 n2 z1 z2 a k * dft2 n1 n2 z1 z2 b k := by
  funext k
  unfold dft2 cyclicConv
  have e1 : ∀ t : ZMod n1 × ZMod n2,
      (∑ j : ZMod n1 × ZMod n2, a j * b (t - j)) *
        (z1 ^ (t.1.val * k.1.val) * z2 ^ (t.2.val * k.2.val))
      = ∑ j : ZMod n1 × ZMod n2, a j * b (t - j) *
          (z1 ^ (t.1.val * k.1.val) * z2 ^ (t.2.val * k.2.val)) :=
    fun t => Finset.sum_mul _ _ _
  rw [Finset.sum_congr rfl fun t _ => e1 t, Finset.sum_comm]
  have e2 : ∀ j : ZMod n1 × ZMod n2,
      (∑ t : ZMod n1 × ZMod n2, a j * b (t - j) *
          (z1 ^ (t.1.val * k.1.val) * z2 ^ (t.2.val * k.2.val)))
      = ∑ u : ZMod n1 × ZMod n2, a j * b u *
          (z1 ^ ((u + j).1.val * k.1.val) * z2 ^ ((u + j).2.val * k.2.val)) := by
    intro j
    apply Fintype.sum_equiv (Equiv.subRight j)
    intro t
    show a j * b (t - j) * _ = a j * b (t - j) *
        (z1 ^ ((t - j + j).1.val * k.1.val) * z2 ^ ((t - j + j).2.val * k.2.val))
    rw [sub_add_cancel]
  rw [Finset.sum_congr rfl fun j _ => e2 j, Finset.sum_mul_sum]
  apply Finset.sum_congr rfl
  intro j _
  apply Finset.sum_congr rfl
  intro u _
  have c1 : z1 ^ ((u + j).1.val * k.1.val)
      = z1 ^ (u.1.val * k.1.val) * z1 ^ (j.1.val * k.1.val) :=
    char_add h1 u.1 j.1 k.1
  have c2 : z2 ^ ((u + j).2.val * k.2.val)
      = z2 ^ (u.2.val * k.2.val) * z2 ^ (j.2.val * k.2.val) :=
    char_add h2 u.2 j.2 k.2
  rw [c1, c2]
  ring

theorem fftConvolve_eq_cyclicConv {R : Type} [Field R] (n1 n2 : ℕ)
    [NeZero n1] [NeZero n2] {z1 z2 : R} (h1 : IsPrimitiveRoot z1 n1)
    (h2 : IsPrimitiveRoot z2 n2) (hn1 : (n1 : R) ≠ 0) (hn2 : (n2 : R) ≠ 0)
    (f : ℚ →+* R) (K : Kern) (M : ℤ → ℤ → ℚ) :
    fftConvolve n1 n2 z1 z2 f K M =
      cyclicConv n1 n2 (embedGrid n1 n2 f K.toFun) (embedGrid n1 n2 f M) := by
  unfold fftConvolve
  rw [show (fun k => dft2 n1 n2 z1 z2 (embedGrid n1 n2 f K.toFun) k *
        dft2 n1 n2 z1 z2 (embedGrid n1 n2 f M) k)
      = dft2 n1 n2 z1 z2 (cyclicConv n1 n2 (embedGrid n1 n2 f K.toFun)
          (embedGrid n1 n2 f M)) from
    (dft2_cyclicConv n1 n2 h1 h2 _ _).symm]
  exact invDft2_dft2 n1 n2 h1 h2 hn1 hn2 _

theorem val_sub_of_le {n : ℕ} [NeZero n] {y q : ℕ} (hq : q ≤ y) (hy : y < n) :
    (((y : ZMod n) - (q : ZMod n)).val) = y - q := by
  have hcast : (y : ZMod n) - (q : ZMod n) = ((y - q : ℕ) : ZMod n) := by
    rw [sub_eq_iff_eq_add, ← Nat.cast_add]
    congr 1
    omega
  rw [hcast, ZMod.val_cast_of_lt (by omega)]

theorem val_sub_of_lt {n : ℕ} [NeZero n] {y q : ℕ} (hlt : y < q) (hy : y < n)
    (hqn : q ≤ n) :
    (((y : ZMod n) - (q : ZMod n)).val) = y + n - q := by
  have hcast : (y : ZMod n) - (q : ZMod n) = ((y + n - q : ℕ) : ZMod n) := by
    rw [sub_eq_iff_eq_add, ← Nat.cast_add]
    have he : y + n - q + q = y + n := by omega
    rw [he, Nat.cast_add, ZMod.natCast_self, add_zero]
  rw [hcast, ZMod.val_cast_of_lt (by omega)]

theorem cyclicConv_eq_direct {R : Type} [Field R] (n1 n2 kh kw h w : ℕ)
    [NeZero n1] [NeZero n2] (f : ℚ →+* R) (K : Kern) (M : ℤ → ℤ → ℚ)
    (hK : ∀ p ∈ K.support, 0 ≤ p.1 ∧ p.1 < (kh : ℤ) ∧ 0 ≤ p.2 ∧ p.2 < (kw : ℤ))
    (hM : ∀ y x : ℤ, M y x ≠ 0 → 0 ≤ y ∧ y < (h : ℤ) ∧ 0 ≤ x ∧ x < (w : ℤ))
    (hkh : kh ≤ n1) (hkw : kw ≤ n2)
    (hp1 : h + kh ≤ n1 + 1) (hp2 : w + kw ≤ n2 + 1)
    (y x : ℕ) (hy : y < n1) (hx : x < n2) :
    cyclicConv n1 n2 (embedGrid n1 n2 f K.toFun) (embedGrid n1 n2 f M)
      ((y : ZMod n1), (x : ZMod n2)) = f (convolve K M y x) := by
  have hrow_ge : ∀ r c : ℤ, (h : ℤ) ≤ r → M r c = 0 := by
    intro r c hr
    by_contra hne
    have := (hM r c hne).2.1
    omega
  have hrow_neg : ∀ r c : ℤ, r < 0 → M r c = 0 := by
    intro r c hr
    by_contra hne
    have := (hM r c hne).1
    omega
  have hcol_ge : ∀ r c : ℤ, (w : ℤ) ≤ c → M r c = 0 := by
    intro r c hc
    by_contra hne
    have := (hM r c hne).2.2.2
    omega
  have hcol_neg : ∀ r c : ℤ, c < 0 → M r c = 0 := by
    intro r c hc
    by_contra hne
    have := (hM r c hne).2.2.1
    omega
  unfold cyclicConv convolve embedGrid
  rw [map_sum]
  simp only [map_mul]
  simp only [Prod.fst_sub, Prod.snd_sub]
  rw [← Finset.sum_subset
    (Finset.subset_univ (Finset.univ.filter
      (fun j : ZMod n1 × ZMod n2 =>
        ((j.1.val : ℤ), (j.2.val : ℤ)) ∈ K.support)))
    (by
      intro j _ hj
      rw [Finset.mem_filter] at hj
      have hns : ((j.1.val : ℤ), (j.2.val : ℤ)) ∉ K.support := by
        intro hmem
        exact hj ⟨Finset.mem_univ _, hmem⟩
      rw [Kern.toFun, if_neg hns, map_zero, zero_mul])]
  apply Finset.sum_nbij' (fun j => ((j.1.val : ℤ), (j.2.val : ℤ)))
    (fun p => ((p.1.toNat : ZMod n1), (p.2.toNat : ZMod n2)))
  · intro j hj
    rw [Finset.mem_filter] at hj
    exact hj.2
  · intro p hp
    obtain ⟨hp1', hp2', hp3', hp4'⟩ := hK p hp
    rw [Finset.mem_filter]
    refine ⟨Finset.mem_univ _, ?_⟩
    rw [ZMod.val_cast_of_lt (by omega), ZMod.val_cast_of_lt (by omega)]
    rw [Int.toNat_of_nonneg hp1', Int.toNat_of_nonneg hp3']
    exact hp
  · intro j hj
    have e1 : ((j.1.val : ℤ).toNat : ZMod n1) = j.1 := by
      rw [Int.toNat_natCast]
      exact ZMod.natCast_rightInverse j.1
    have e2 : ((j.2.val : ℤ).toNat : ZMod n2) = j.2 := by
      rw [Int.toNat_natCast]
      exact ZMod.natCast_rightInverse j.2
    exact Prod.ext e1 e2
  · intro p hp
    obtain ⟨hp1', hp2', hp3', hp4'⟩ := hK p hp
    have e1 : (((p.1.toNat : ZMod n1)).val : ℤ) = p.1 := by
      rw [ZMod.val_cast_of_lt (by omega)]
      exact Int.toNat_of_nonneg hp1'
    have e2 : (((p.2.toNat : ZMod n2)).val : ℤ) = p.2 := by
      rw [ZMod.val_cast_of_lt (by omega)]
      exact Int.toNat_of_nonneg hp3'
    exact Prod.ext e1 e2
  · intro j hj
    rw [Finset.mem_filter] at hj
    have hmem := hj.2
    have hq1b : (j.1.val : ℤ) < (kh : ℤ) := (hK _ hmem).2.1
    have hq2b : (j.2.val : ℤ) < (kw : ℤ) := (hK _ hmem).2.2.2
    have hq1 : j.1.val < kh := by exact_mod_cast hq1b
    have hq2 : j.2.val < kw := by exact_mod_cast hq2b
    have hj1 : j.1 = ((j.1.val : ℕ) : ZMod n1) :=
      (ZMod.natCast_rightInverse j.1).symm
    have hj2 : j.2 = ((j.2.val : ℕ) : ZMod n2) :=
      (ZMod.natCast_rightInverse j.2).symm
    rw [Kern.toFun, if_pos hmem]
    show f (K.val ((j.1.val : ℤ), (j.2.val : ℤ))) *
        f (M ((((y : ZMod n1) - j.1).val : ℕ) : ℤ)
          ((((x : ZMod n2) - j.2).val : ℕ) : ℤ))
      = f (K.val ((j.1.val : ℤ), (j.2.val : ℤ))) *
        f (M ((y : ℤ) - (j.1.val : ℤ)) ((x : ℤ) - (j.2.val : ℤ)))
    congr 1
    apply congrArg
    rcases le_or_lt (j.1.val) y with hr | hr
    · rcases le_or_lt (j.2.val) x with hc | hc
      · have r1 : ((((y : ZMod n1) - j.1).val : ℕ) : ℤ)
            = (y : ℤ) - (j.1.val : ℤ) := by
          conv_lhs => rw [hj1]
          rw [val_sub_of_le hr hy, Nat.cast_sub hr]
        have r2 : ((((x : ZMod n2) - j.2).val : ℕ) : ℤ)
            = (x : ℤ) - (j.2.val : ℤ) := by
          conv_lhs => rw [hj2]
          rw [val_sub_of_le hc hx, Nat.cast_sub hc]
        rw [r1, r2]
      · have hval : ((x : ZMod n2) - j.2).val = x + n2 - j.2.val := by
          conv_lhs => rw [hj2]
          exact val_sub_of_lt hc hx (by omega)
        have hge : (w : ℤ) ≤ ((((x : ZMod n2) - j.2).val : ℕ) : ℤ) := by
          rw [hval]
          omega
        rw [hcol_ge _ _ hge, hcol_neg _ _ (by omega)]
    · have hval : ((y : ZMod n1) - j.1).val = y + n1 - j.1.val := by
        conv_lhs => rw [hj1]
        exact val_sub_of_lt hr hy (by omega)
      have hge : (h : ℤ) ≤ ((((y : ZMod n1) - j.1).val : ℕ) : ℤ) := by
        rw [hval]
        omega
      rw [hrow_ge _ _ hge, hrow_neg _ _ (by omega)]

/-- C7: on a padded grid large enough to avoid wrap-around, the
FFT-based convolution strategy (transform, multiply pointwise, transform
back — stated over any field with primitive roots of unity of the grid
sizes, the exact arithmetic the floating-point FFT approximates) agrees
with the direct filter-window convolution at every output pixel; the
choice of strategy does not change observable behavior. -/
theorem C7_convolution_strategies_equivalent {R : Type} [Field R]
    (n1 n2 kh kw h w : ℕ) [NeZero n1] [NeZero n2] {z1 z2 : R}
    (h1 : IsPrimitiveRoot z1 n1) (h2 : IsPrimitiveRoot z2 n2)
    (hn1 : (n1 : R) ≠ 0) (hn2 : (n2 : R) ≠ 0) (f : ℚ →+* R) (K : Kern)
    (M : ℤ → ℤ → ℚ)
    (hK : ∀ p ∈ K.support, 0 ≤ p.1 ∧ p.1 < (kh : ℤ) ∧ 0 ≤ p.2 ∧ p.2 < (kw : ℤ))
    (hM : ∀ y x : ℤ, M y x ≠ 0 → 0 ≤ y ∧ y < (h : ℤ) ∧ 0 ≤ x ∧ x < (w : ℤ))
    (hkh : kh ≤ n1) (hkw : kw ≤ n2)
    (hp1 : h + kh ≤ n1 + 1) (hp2 : w + kw ≤ n2 + 1)
    (y x : ℕ) (hy : y < n1) (hx : x < n2) :
    fftConvolve n1 n2 z1 z2 f K M ((y : ZMod n1), (x : ZMod n2))
      = f (convolve K M y x) := by
  rw [fftConvolve_eq_cyclicConv n1 n2 h1 h2 hn1 hn2 f K M]
  exact cyclicConv_eq_direct n1 n2 kh kw h w f K M hK hM hkh hkw hp1 hp2
    y x hy hx

/-- C7 witness: the 1×1 sample kernel against the 2×2 sample morphology
on a 2×2 grid over `ℚ` with root `-1`: both strategies agree at the
output pixel `(1, 0)`. -/
theorem C7_convolution_strategies_equivalent_witness :
    fftConvolve 2 2 (-1 : ℚ) (-1 : ℚ) (RingHom.id ℚ) sampleKern sampleM
        ((1 : ZMod 2), (0 : ZMod 2))
      = (RingHom.id ℚ) (convolve sampleKern sampleM 1 0) := by
  have hroot : IsPrimitiveRoot (-1 : ℚ) 2 :=
    IsPrimitiveRoot.neg_one 0 (by decide)
  refine C7_convolution_strategies_equivalent 2 2 1 1 2 2 hroot hroot
    (by norm_num) (by norm_num) (RingHom.id ℚ) sampleKern sampleM ?_ ?_
    (by norm_num) (by norm_num) (by norm_num) (by norm_num) 1 0
    (by norm_num) (by norm_num)
  · intro p hp
    rw [show p = ((0 : ℤ), (0 : ℤ)) from Finset.mem_singleton.mp hp]
    refine ⟨le_refl _, ?_, le_refl _, ?_⟩ <;> norm_num
  · intro yy xx hne
    unfold sampleM at hne
    split at hne
    · rename_i hin
      obtain ⟨a1, a2, a3, a4⟩ := hin
      refine ⟨a1, by omega, a3, by omega⟩
    · exact absurd rfl hne

end Scarlet
